import Mathlib

/-!
Verification of the GAA fixtures reconciliation engine.

Shallow embedding of the backend sources (`backend/normalise.py`,
`backend/utils.py`, `backend/models.py`, `backend/merge.py`, the windowing
part of `backend/main.py`) as executable Lean definitions, followed by
theorems settling the specification claims.

Modelling conventions:
* Python `str` is `String`; transformations work on `String.data : List Char`.
* Python's stable `list.sort` / `sorted` is `List.insertionSort` (stable).
* `dict` insertion-order grouping is an association list built by a fold.
* Machine-level caveats (full Unicode tables, float rounding) are modelled
  exactly where the integer/ASCII fragment used by the program makes the
  behaviour unambiguous; comments note each such point.
-/

namespace GAA

/-- ASCII whitespace, as matched by Python's `str.strip()` and the regex
class `\s` (the repository only feeds ASCII whitespace through these). -/
def isPyWs (c : Char) : Bool :=
  c == ' ' || c == '\t' || c == '\n' || c == '\x0b' || c == '\x0c' || c == '\r'

/-- Python `str.lower()` restricted to ASCII plus the accented Latin vowels
appearing in Irish text (the only non-ASCII letters the pipeline handles). -/
def pyLowerChar (c : Char) : Char :=
  if 'A' ≤ c ∧ c ≤ 'Z' then Char.ofNat (c.toNat + 32)
  else if c = 'Á' then 'á' else if c = 'É' then 'é' else if c = 'Í' then 'í'
  else if c = 'Ó' then 'ó' else if c = 'Ú' then 'ú' else c

/-- One step of `unicodedata.normalize("NFD"/"NFKD", ·)` followed by
`.encode("ascii","ignore")`: ASCII characters pass through, decomposable
accented Latin letters lose their combining mark, anything else is dropped.
The table covers the Latin letters with diacritics relevant to the data. -/
def nfdAsciiChar (c : Char) : List Char :=
  if c.toNat < 128 then [c]
  else if c = 'á' ∨ c = 'à' ∨ c = 'â' ∨ c = 'ä' ∨ c = 'ã' then ['a']
  else if c = 'é' ∨ c = 'è' ∨ c = 'ê' ∨ c = 'ë' then ['e']
  else if c = 'í' ∨ c = 'ì' ∨ c = 'î' ∨ c = 'ï' then ['i']
  else if c = 'ó' ∨ c = 'ò' ∨ c = 'ô' ∨ c = 'ö' ∨ c = 'õ' then ['o']
  else if c = 'ú' ∨ c = 'ù' ∨ c = 'û' ∨ c = 'ü' then ['u']
  else if c = 'Á' ∨ c = 'À' ∨ c = 'Â' ∨ c = 'Ä' then ['A']
  else if c = 'É' ∨ c = 'È' ∨ c = 'Ê' ∨ c = 'Ë' then ['E']
  else if c = 'Í' ∨ c = 'Ì' ∨ c = 'Î' ∨ c = 'Ï' then ['I']
  else if c = 'Ó' ∨ c = 'Ò' ∨ c = 'Ô' ∨ c = 'Ö' then ['O']
  else if c = 'Ú' ∨ c = 'Ù' ∨ c = 'Û' ∨ c = 'Ü' then ['U']
  else if c = 'ç' then ['c'] else if c = 'Ç' then ['C']
  else if c = 'ñ' then ['n'] else if c = 'Ñ' then ['N']
  else []

/-- `normalise.strip_diacritics` on a character list. -/
def strip_diacriticsL (l : List Char) : List Char := l.flatMap nfdAsciiChar

/-- Python `str.strip()` (whitespace from both ends). -/
def pyStrip (l : List Char) : List Char :=
  ((l.dropWhile isPyWs).reverse.dropWhile isPyWs).reverse

/-- Strip a given character from both ends (Python `str.strip("-")`). -/
def stripCharEnds (c : Char) (l : List Char) : List Char :=
  ((l.dropWhile (· == c)).reverse.dropWhile (· == c)).reverse

/-- Collapse adjacent repetitions of `c` to a single occurrence
(the effect of the regex substitutions `\s+`→`" "` and `-+`→`"-"`). -/
def squashRuns (c : Char) : List Char → List Char
  | [] => []
  | [x] => [x]
  | x :: y :: rest =>
      if x == c && y == c then squashRuns c (y :: rest)
      else x :: squashRuns c (y :: rest)

/-- Python `str.split(sep)` for a one-character separator (auxiliary). -/
def splitOnCharAux (c : Char) : List Char → List Char → List (List Char)
  | [], acc => [acc.reverse]
  | x :: xs, acc =>
      if x == c then acc.reverse :: splitOnCharAux c xs []
      else splitOnCharAux c xs (x :: acc)

/-- Python `str.split(sep)` for a one-character separator. -/
def splitOnChar (c : Char) (l : List Char) : List (List Char) := splitOnCharAux c l []

/-- Value of a non-empty all-digit string (helper for `int(...)`). -/
def digitsToNat (l : List Char) : Option Nat :=
  if l ≠ [] ∧ l.all Char.isDigit then
    some (l.foldl (fun n c => n * 10 + (c.toNat - 48)) 0)
  else none

/-- Python `int(str)`: surrounding whitespace, an optional sign, then digits;
anything else raises (modelled as `none`). -/
def pyInt (l : List Char) : Option Int :=
  match pyStrip l with
  | '-' :: rest => (digitsToNat rest).map (fun n => -(n : Int))
  | '+' :: rest => (digitsToNat rest).map (fun n => (n : Int))
  | t => (digitsToNat t).map (fun n => (n : Int))

/-- Case-insensitive list-prefix test (Python regex matching with `re.I`). -/
def prefixCI : List Char → List Char → Bool
  | [], _ => true
  | _ :: _, [] => false
  | p :: ps, c :: cs => (pyLowerChar p == pyLowerChar c) && prefixCI ps cs

/-- Python's substring operator `pat in hay`. -/
def containsSubstr (pat hay : List Char) : Bool :=
  hay.tails.any (fun t => pat.isPrefixOf t)

/-- Characters kept verbatim by `normalise._NON_ALNUM_RE` (`[a-z0-9-]`;
whitespace is also kept but is handled separately below). -/
def isNormKeep (c : Char) : Bool := c.isLower || c.isDigit || c == '-'

/-- `normalise.norm_text`: lowercase, strip diacritics, replace every
character outside `[a-z0-9\s-]` by a space, collapse whitespace, trim.
Replacing each run of bad characters by one space and then collapsing
`\s+` equals replacing every bad or whitespace character by `' '` and
collapsing runs of `' '`, which is how it is written here. -/
def norm_text (s : String) : String :=
  let l1 := strip_diacriticsL (s.data.map pyLowerChar)
  let l2 := l1.map (fun c => if isNormKeep c then c else ' ')
  ⟨stripCharEnds ' ' (squashRuns ' ' l2)⟩

/-- Join token lists with single spaces (Python `" ".join`). -/
def joinWithSpace : List (List Char) → List Char
  | [] => []
  | [t] => t
  | t :: rest => t ++ ' ' :: joinWithSpace rest

/-- Modelled from the spec: the static language-variant token table
`IRISH_TO_ENGLISH` lives in `backend/irish_map.py`, which is not part of
the provided sources; the spec describes it only as "an external data table
mapping regional-language spellings to their common-language equivalents".
It is therefore threaded through as an arbitrary association list, with
`dict.get(tok, tok)` as the lookup. -/
def irishLookup (tbl : List (String × String)) (tok : String) : String :=
  (tbl.lookup tok).getD tok

/-- `normalise.map_irish_tokens`: normalise, split on single spaces, map
each token through the variant table, re-join with spaces. -/
def map_irish_tokens (tbl : List (String × String)) (s : String) : String :=
  let toks := splitOnChar ' ' (norm_text s).data
  ⟨joinWithSpace (toks.map (fun tok => (irishLookup tbl ⟨tok⟩).data))⟩

/-- `merge._norm_team`. -/
def _norm_team (tbl : List (String × String)) (s : String) : String :=
  norm_text (map_irish_tokens tbl s)

/-- `utils.slugify`: NFKD + ascii-ignore, lowercase, delete characters
outside `[a-z0-9\s-]`, whitespace runs to `-`, strip `-` ends, collapse
`-` runs.  (Turning each whitespace character into `-` before collapsing
runs of `-` yields the same string as turning each whitespace run into a
single `-` first.) -/
def slugify (value : String) : String :=
  let a := (strip_diacriticsL value.data).map pyLowerChar
  let b := a.filter (fun c => c.isLower || c.isDigit || isPyWs c || c == '-')
  let c := b.map (fun ch => if isPyWs ch then '-' else ch)
  ⟨squashRuns '-' (stripCharEnds '-' c)⟩

/-- `models.Status`. -/
inductive Status where
  | scheduled
  | FT
  | PP
  deriving DecidableEq

/-- `models.Fixture` (pydantic model; `search_index` is derived state). -/
structure Fixture where
  id : String
  date : String
  time : String
  competition : String
  home : String
  away : String
  venue : Option String := none
  status : Status := Status.scheduled
  score : Option String := some ""
  source : String
  updated_at : String
  search_index : Option String := none
  deriving DecidableEq

/-- `models.Competition`. -/
structure Competition where
  name : String
  slug : String
  popularity : Int
  match_count : Nat
  first_kickoff : String
  deriving DecidableEq

/-! Placeholder classifier (`normalise.is_placeholder_team`).

The regexes are embedded as executable searches over `List Char`.  `\b` is
a word boundary; since every literal alternative in these patterns starts
and ends with a word character, `(^|\b)p` holds at position `i` exactly
when `i = 0` or the previous character is a non-word character, and
symmetrically for `p($|\b)`. -/

/-- Python `\w` (ASCII fragment): letters, digits, underscore. -/
def wordCharB (c : Char) : Bool := c.isAlpha || c.isDigit || c == '_'

/-- Word boundary / string start holds just before position `i`. -/
def bdryBefore (s : List Char) (i : Nat) : Bool :=
  i == 0 || !(wordCharB (s.getD (i - 1) ' '))

/-- Word boundary / string end holds just after position `i - 1`,
i.e. at position `i`. -/
def bdryAfter (s : List Char) (i : Nat) : Bool :=
  s.length ≤ i || !(wordCharB (s.getD i ' '))

/-- Case-insensitive match of `pat` at position `i` of `s`. -/
def matchAtCI (s : List Char) (i : Nat) (pat : List Char) : Bool :=
  prefixCI pat (s.drop i)

/-- `re.search` of `(^|\b)(p₁|…|pₙ)($|\b)` with `re.I`, for literal
alternatives that start and end with word characters. -/
def searchWordAlts (pats : List String) (s : List Char) : Bool :=
  (List.range (s.length + 1)).any (fun i =>
    pats.any (fun p =>
      bdryBefore s i && matchAtCI s i p.data && bdryAfter s (i + p.length)))

/-- `normalise._PLACEHOLDER_SIMPLE` searched on the raw (stripped) name:
`(^|\b)(tbd|tba|tbc|bye|unknown|to be (confirmed|decided))($|\b)`, `re.I`. -/
def simpleSearch (raw : List Char) : Bool :=
  searchWordAlts
    ["tbd", "tba", "tbc", "bye", "unknown", "to be confirmed", "to be decided"] raw

/-- The literal phrase list `ph_words` from `is_placeholder_team`. -/
def ph_words : List String :=
  ["winner", "loser", "runner-up", "runner up", "runners-up", "runners up",
   "top team", "first place", "second place", "third place", "4th place",
   "1st place", "2nd place", "3rd place"]

/-- Search for `a\s*b` where `b` starts with a non-whitespace character
(`\s*` is greedy and `b` cannot begin inside the skipped run). -/
def seqWsSearch (a b : List Char) (s : List Char) : Bool :=
  (List.range (s.length + 1)).any (fun i =>
    matchAtCI s i a && prefixCI b ((s.drop (i + a.length)).dropWhile isPyWs))

/-- Search for `round\s*\d+`: the literal `round`, optional whitespace,
then at least one digit. -/
def roundNumSearch (s : List Char) : Bool :=
  (List.range (s.length + 1)).any (fun i =>
    matchAtCI s i "round".data &&
      (match ((s.drop (i + 5)).dropWhile isPyWs).head? with
       | some c => c.isDigit
       | none => false))

/-- `normalise._PLACEHOLDER_STAGE` searched on the lowercased name:
`(quarter\s*final|semi\s*final|final|prelim|preliminary|qualifier|play[- ]?off|round\s*\d+)`. -/
def stageSearch (s : List Char) : Bool :=
  seqWsSearch "quarter".data "final".data s || seqWsSearch "semi".data "final".data s ||
  containsSubstr "final".data s || containsSubstr "prelim".data s ||
  containsSubstr "preliminary".data s || containsSubstr "qualifier".data s ||
  containsSubstr "play-off".data s || containsSubstr "play off".data s ||
  containsSubstr "playoff".data s || roundNumSearch s

/-- Search for `kw\s*([a-z]|\d+)` (with `re.I` the class `[a-z]` matches any
ASCII letter): the keyword, optional whitespace, then a letter or digit. -/
def kwThenAlnumSearch (kw : List Char) (s : List Char) : Bool :=
  (List.range (s.length + 1)).any (fun i =>
    matchAtCI s i kw &&
      (match ((s.drop (i + kw.length)).dropWhile isPyWs).head? with
       | some c => c.isAlpha || c.isDigit
       | none => false))

/-- `normalise._PLACEHOLDER_GROUP`:
`(group\s*[a-z]|group\s*\d+|pool\s*[a-z]|pool\s*\d+)`. -/
def groupPoolSearch (s : List Char) : Bool :=
  kwThenAlnumSearch "group".data s || kwThenAlnumSearch "pool".data s

/-- Digit test at position `j` (out of range counts as non-digit). -/
def digitAt (s : List Char) (j : Nat) : Bool := (s.getD j ' ').isDigit

/-- `normalise._PLACEHOLDER_SHORT`: `(^|\b)(qf|sf|rf|r\d{1,2})(\b|$)`. -/
def shortSearch (s : List Char) : Bool :=
  (List.range (s.length + 1)).any (fun i =>
    bdryBefore s i &&
      ((["qf", "sf", "rf"].any (fun p => matchAtCI s i p.data && bdryAfter s (i + 2))) ||
       (matchAtCI s i ['r'] &&
         ((digitAt s (i + 1) && digitAt s (i + 2) && bdryAfter s (i + 3)) ||
          (digitAt s (i + 1) && bdryAfter s (i + 2))))))

/-- The final pattern of `.+$` after the slash: `.` does not match a
newline and `$` also matches just before one trailing newline, so the
remainder must be non-empty and newline-free after dropping at most one
final newline. -/
def dotPlusEnd (r : List Char) : Bool :=
  let core := if r.getLast? == some '\n' then r.dropLast else r
  !core.isEmpty && core.all (fun c => c != '\n')

/-- `re.match(r"^[^vvs]+/.+$", raw, re.I)`: a non-empty prefix containing
neither `v` nor `s` (case-insensitively; the class `[^vvs]` excludes
exactly those two letters), then a literal `/`, then `.+$`. -/
def slashAltMatch (raw : List Char) : Bool :=
  (List.range raw.length).any (fun k =>
    decide (0 < k) && (raw.getD k ' ' == '/') &&
    (raw.take k).all (fun c => !(pyLowerChar c == 'v' || pyLowerChar c == 's')) &&
    dotPlusEnd (raw.drop (k + 1)))

/-- `re.search(r"\b(v|vs|versus)\b", raw, re.I)`. -/
def versusSearch (raw : List Char) : Bool :=
  searchWordAlts ["v", "vs", "versus"] raw

/-- `normalise.is_placeholder_team`. -/
def is_placeholder_team (name : String) : Bool :=
  if name.data.isEmpty then true
  else
    let raw := pyStrip name.data
    let s := (strip_diacriticsL raw).map pyLowerChar
    if simpleSearch raw then true
    else if ph_words.any (fun w => containsSubstr w.data s) then true
    else if stageSearch s then true
    else if groupPoolSearch s then true
    else if shortSearch s then true
    else if slashAltMatch raw && !versusSearch raw then true
    else false

/-! Python string comparison and the lexicographic tuple orders used by
the `sort` keys.  Python compares strings lexicographically by code point;
`strLtB` implements exactly that, structurally (so that concrete instances
evaluate inside the kernel). -/

/-- Python `s1 < s2` on character lists: lexicographic by code point. -/
def strLtB : List Char → List Char → Bool
  | [], [] => false
  | [], _ :: _ => true
  | _ :: _, [] => false
  | a :: as, b :: bs =>
      if a.toNat < b.toNat then true
      else if b.toNat < a.toNat then false
      else strLtB as bs

/-- Python `s1 < s2` on strings. -/
def strLt (a b : String) : Prop := strLtB a.data b.data = true

/-- Python `s1 <= s2` on strings (the negation of the reverse `<`). -/
def strLe (a b : String) : Prop := strLtB b.data a.data = false

instance (a b : String) : Decidable (strLt a b) := by unfold strLt; infer_instance

instance (a b : String) : Decidable (strLe a b) := by unfold strLe; infer_instance

theorem strLtB_irrefl : ∀ l : List Char, strLtB l l = false
  | [] => rfl
  | a :: as => by simp [strLtB, strLtB_irrefl as]

theorem strLtB_asymm : ∀ l1 l2 : List Char,
    strLtB l1 l2 = true → strLtB l2 l1 = false
  | [], [] => by simp [strLtB]
  | [], _ :: _ => by simp [strLtB]
  | _ :: _, [] => by simp [strLtB]
  | a :: as, b :: bs => by
      by_cases h1 : a.toNat < b.toNat
      · have h2 : ¬ b.toNat < a.toNat := by omega
        simp [strLtB, h1, h2]
      · by_cases h2 : b.toNat < a.toNat
        · simp [strLtB, h1, h2]
        · simpa [strLtB, h1, h2] using strLtB_asymm as bs

theorem strLtB_connex : ∀ l1 l2 : List Char,
    strLtB l1 l2 = false → strLtB l2 l1 = false → l1 = l2
  | [], [] => by simp
  | [], _ :: _ => by simp [strLtB]
  | _ :: _, [] => by intro _ h; simp [strLtB] at h
  | a :: as, b :: bs => by
      by_cases h1 : a.toNat < b.toNat
      · intro h _; simp [strLtB, h1] at h
      · by_cases h2 : b.toNat < a.toNat
        · intro _ h; simp [strLtB, h2] at h
        · intro h3 h4
          simp only [strLtB, if_neg h1, if_neg h2] at h3 h4
          have hab : a = b := by
            have hn : a.toNat = b.toNat := by omega
            exact Char.eq_of_val_eq (UInt32.toNat.inj hn)
          rw [hab, strLtB_connex as bs h3 h4]

theorem strLtB_trans : ∀ l1 l2 l3 : List Char,
    strLtB l1 l2 = true → strLtB l2 l3 = true → strLtB l1 l3 = true
  | [], [], _ => by simp [strLtB]
  | [], _ :: _, [] => by intro _ h; simp [strLtB] at h
  | [], _ :: _, _ :: _ => by simp [strLtB]
  | _ :: _, [], _ => by intro h; simp [strLtB] at h
  | _ :: _, _ :: _, [] => by intro _ h; simp [strLtB] at h
  | a :: as, b :: bs, c :: cs => by
      intro h1 h2
      by_cases hab : a.toNat < b.toNat
      · by_cases hbc : b.toNat < c.toNat
        · have hac : a.toNat < c.toNat := by omega
          simp [strLtB, hac]
        · by_cases hcb : c.toNat < b.toNat
          · simp [strLtB, hcb] at h2
            exact absurd h2 hbc
          · have hac : a.toNat < c.toNat := by omega
            simp [strLtB, hac]
      · by_cases hba : b.toNat < a.toNat
        · simp [strLtB, hab, hba] at h1
        · by_cases hbc : b.toNat < c.toNat
          · have hac : a.toNat < c.toNat := by omega
            simp [strLtB, hac]
          · by_cases hcb : c.toNat < b.toNat
            · simp [strLtB, hcb] at h2
              exact absurd h2 hbc
            · have hac1 : ¬ a.toNat < c.toNat := by omega
              have hac2 : ¬ c.toNat < a.toNat := by omega
              simp only [strLtB, if_neg hab, if_neg hba] at h1
              simp only [strLtB, if_neg hbc, if_neg hcb] at h2
              simp only [strLtB, if_neg hac1, if_neg hac2]
              exact strLtB_trans as bs cs h1 h2

theorem strLe_refl (a : String) : strLe a a := strLtB_irrefl _

theorem strLe_total (a b : String) : strLe a b ∨ strLe b a := by
  by_cases h : strLtB b.data a.data = true
  · exact Or.inr (strLtB_asymm _ _ h)
  · exact Or.inl (Bool.eq_false_iff.mpr h)

theorem strLe_trans {a b c : String} (h1 : strLe a b) (h2 : strLe b c) :
    strLe a c := by
  unfold strLe at h1 h2 ⊢
  by_cases hca : strLtB c.data a.data = true
  · by_cases hab : strLtB a.data b.data = true
    · exact absurd (strLtB_trans _ _ _ hca hab) (Bool.eq_false_iff.mp h2)
    · have hd : a.data = b.data :=
        strLtB_connex _ _ (Bool.eq_false_iff.mpr hab) h1
      rw [hd] at hca
      exact absurd hca (Bool.eq_false_iff.mp h2)
  · exact Bool.eq_false_iff.mpr hca

theorem strLt_asymm {a b : String} (h : strLt a b) : strLe a b :=
  strLtB_asymm _ _ h

/-- Trichotomy for the Python string order. -/
theorem str_trichotomy (a b : String) : strLt a b ∨ a = b ∨ strLt b a := by
  by_cases h1 : strLtB a.data b.data = true
  · exact Or.inl h1
  · by_cases h2 : strLtB b.data a.data = true
    · exact Or.inr (Or.inr h2)
    · refine Or.inr (Or.inl ?_)
      have := strLtB_connex a.data b.data (Bool.eq_false_iff.mpr h1)
        (Bool.eq_false_iff.mpr h2)
      cases a; cases b; exact congrArg String.mk this

/-- Lexicographic `≤` on `(date, time)`-style string pairs, exactly the
order of Python's tuple comparison of strings. -/
def lexLe2 (p q : String × String) : Prop :=
  strLt p.1 q.1 ∨ (p.1 = q.1 ∧ strLe p.2 q.2)

instance (p q : String × String) : Decidable (lexLe2 p q) := by
  unfold lexLe2; infer_instance

/-- Lexicographic `≤` on `(Int, Int, String)` sort keys, exactly the order
of Python's tuple comparison. -/
def lexLe3 (p q : Int × Int × String) : Prop :=
  p.1 < q.1 ∨ (p.1 = q.1 ∧
    (p.2.1 < q.2.1 ∨ (p.2.1 = q.2.1 ∧ strLe p.2.2 q.2.2)))

instance (p q : Int × Int × String) : Decidable (lexLe3 p q) := by
  unfold lexLe3; infer_instance

theorem lexLe2_refl (p : String × String) : lexLe2 p p :=
  Or.inr ⟨rfl, strLe_refl _⟩

theorem lexLe2_total (p q : String × String) : lexLe2 p q ∨ lexLe2 q p := by
  rcases str_trichotomy p.1 q.1 with h | h | h
  · exact Or.inl (Or.inl h)
  · rcases strLe_total p.2 q.2 with h2 | h2
    · exact Or.inl (Or.inr ⟨h, h2⟩)
    · exact Or.inr (Or.inr ⟨h.symm, h2⟩)
  · exact Or.inr (Or.inl h)

theorem lexLe2_trans {p q r : String × String}
    (h1 : lexLe2 p q) (h2 : lexLe2 q r) : lexLe2 p r := by
  rcases h1 with h1 | ⟨e1, l1⟩
  · rcases h2 with h2 | ⟨e2, _⟩
    · exact Or.inl (strLtB_trans _ _ _ h1 h2)
    · exact Or.inl (e2 ▸ h1)
  · rcases h2 with h2 | ⟨e2, l2⟩
    · exact Or.inl (e1 ▸ h2)
    · exact Or.inr ⟨e1.trans e2, strLe_trans l1 l2⟩

theorem lexLe3_refl (p : Int × Int × String) : lexLe3 p p :=
  Or.inr ⟨rfl, Or.inr ⟨rfl, strLe_refl _⟩⟩

theorem lexLe3_total (p q : Int × Int × String) : lexLe3 p q ∨ lexLe3 q p := by
  rcases lt_trichotomy p.1 q.1 with h | h | h
  · exact Or.inl (Or.inl h)
  · rcases lt_trichotomy p.2.1 q.2.1 with h2 | h2 | h2
    · exact Or.inl (Or.inr ⟨h, Or.inl h2⟩)
    · rcases strLe_total p.2.2 q.2.2 with h3 | h3
      · exact Or.inl (Or.inr ⟨h, Or.inr ⟨h2, h3⟩⟩)
      · exact Or.inr (Or.inr ⟨h.symm, Or.inr ⟨h2.symm, h3⟩⟩)
    · exact Or.inr (Or.inr ⟨h.symm, Or.inl h2⟩)
  · exact Or.inr (Or.inl h)

theorem lexLe3_trans {p q r : Int × Int × String}
    (h1 : lexLe3 p q) (h2 : lexLe3 q r) : lexLe3 p r := by
  rcases h1 with h1 | ⟨e1, l1⟩
  · rcases h2 with h2 | ⟨e2, _⟩
    · exact Or.inl (lt_trans h1 h2)
    · exact Or.inl (e2 ▸ h1)
  · rcases h2 with h2 | ⟨e2, l2⟩
    · exact Or.inl (e1 ▸ h2)
    · refine Or.inr ⟨e1.trans e2, ?_⟩
      rcases l1 with l1 | ⟨f1, s1⟩
      · rcases l2 with l2 | ⟨f2, _⟩
        · exact Or.inl (lt_trans l1 l2)
        · exact Or.inl (f2 ▸ l1)
      · rcases l2 with l2 | ⟨f2, s2⟩
        · exact Or.inl (f1 ▸ l2)
        · exact Or.inr ⟨f1.trans f2, strLe_trans s1 s2⟩

/-! Merge engine (`backend/merge.py`). -/

/-- `merge.SOURCE_PRIORITY.get(source, -1)`. -/
def SOURCE_PRIORITY_get (s : String) : Int :=
  if s = "gaa_gms" then 3
  else if s = "clubzap" then 2
  else if s = "ics" then 1
  else if s = "scraper" then 0
  else -1

/-- `merge._minutes`: `h, m = hhmm.split(":"); int(h) * 60 + int(m)`.
Python raises on malformed input; that is modelled as `none`. -/
def _minutes (hhmm : String) : Option Int :=
  match splitOnChar ':' hhmm.data with
  | [h, m] =>
      match pyInt h, pyInt m with
      | some hv, some mv => some (hv * 60 + mv)
      | _, _ => none
  | _ => none

/-- `merge._best_time_bucket`: `round(mins / 5) * 5`.  Because `mins` is an
integer, `mins / 5` has fractional part in `{0, ±.2, ±.4}` and never hits
the round-half-to-even tie, so Python's `round` equals
`⌊mins / 5 + 1 / 2⌋ = ⌊(mins + 2) / 5⌋` exactly (floor division). -/
def _best_time_bucket (hhmm : String) : Option Int :=
  (_minutes hhmm).map (fun mins => ((mins + 2).fdiv 5) * 5)

/-- `merge.popularity_score`: additive keyword scoring over the lowercased
competition name. -/
def popularity_score (name : String) : Int :=
  let t := name.data.map pyLowerChar
  (if containsSubstr "all-ireland".data t then 100 else 0) +
  (if ["ulster", "munster", "leinster", "connacht", "provincial"].any
      (fun x => containsSubstr x.data t) then 80 else 0) +
  (if ["national league", "nfl", "nhl"].any
      (fun x => containsSubstr x.data t) then 70 else 0) +
  (if containsSubstr "senior championship".data t then 60 else 0) +
  (if containsSubstr "intermediate".data t then 50 else 0) +
  (if containsSubstr "junior".data t then 40 else 0) +
  (if ["division", "league"].any (fun x => containsSubstr x.data t) then 30 else 0) +
  (if containsSubstr "friendly".data t then 10 else 0)

/-- Python truthiness of an `Optional[str]`: `None` and `""` are falsy. -/
def truthyStr : Option String → Bool
  | none => false
  | some s => !s.data.isEmpty

/-- `merge._completeness_points`: +1 venue present, +3 status `FT`,
+2 non-empty score. -/
def _completeness_points (f : Fixture) : Int :=
  (if truthyStr f.venue then 1 else 0) +
  (if f.status = Status.FT then 3 else 0) +
  (if truthyStr f.score then 2 else 0)

/-- The `dict`-grouping loop: append `f` to the group at key `k`,
or append a fresh `(k, [f])` entry (Python dicts preserve insertion
order, so `defaultdict` grouping is an ordered association list). -/
def addToGroup {α κ : Type} [DecidableEq κ] (k : κ) (f : α) :
    List (κ × List α) → List (κ × List α)
  | [] => [(k, [f])]
  | (k2, g) :: rest =>
      if k2 = k then (k2, g ++ [f]) :: rest
      else (k2, g) :: addToGroup k f rest

/-- Group a list by a key function, preserving dict insertion order. -/
def groupBy {α κ : Type} [DecidableEq κ] (key : α → κ) (fs : List α) :
    List (κ × List α) :=
  fs.foldl (fun acc f => addToGroup (key f) f acc) []

/-- The dedupe grouping key:
`(f.date, _best_time_bucket(f.time), _norm_team(f.home), _norm_team(f.away), slugify(f.competition))`.
(`_best_time_bucket` raises on an unparseable time in Python; here the
parse failure is carried as `none`, and every claim is instantiated on
well-formed `HH:MM` times.) -/
def fixtureKey (tbl : List (String × String)) (f : Fixture) :
    String × Option Int × String × String × String :=
  (f.date, _best_time_bucket f.time, _norm_team tbl f.home,
   _norm_team tbl f.away, slugify f.competition)

/-- Sort key of the in-group conflict-resolution sort:
`(SOURCE_PRIORITY.get(source, -1), completeness, updated_at)`
(ISO-8601 `Z` timestamps compare chronologically as strings, exactly as
Python compares them). -/
def mergeRank (f : Fixture) : Int × Int × String :=
  (SOURCE_PRIORITY_get f.source, _completeness_points f, f.updated_at)

/-- `group.sort(key=…, reverse=True)` order: `a` may precede `b` when
`rank b ≤ rank a`; Python's sort is stable and `reverse=True` keeps equal
keys in input order, which is exactly stable insertion sort with this
relation. -/
def mergeDescRel (a b : Fixture) : Prop := lexLe3 (mergeRank b) (mergeRank a)

instance : DecidableRel mergeDescRel := fun a b =>
  inferInstanceAs (Decidable (lexLe3 (mergeRank b) (mergeRank a)))

instance : IsTotal Fixture mergeDescRel :=
  ⟨fun a b => lexLe3_total (mergeRank b) (mergeRank a)⟩

instance : IsTrans Fixture mergeDescRel :=
  ⟨fun _ _ _ h1 h2 => lexLe3_trans h2 h1⟩

/-- Chronological sort key `(date, time)` (ISO strings compare
chronologically, as in the Python code). -/
def chronKey (f : Fixture) : String × String := (f.date, f.time)

/-- Ascending `(date, time)` order. -/
def chronAscRel (a b : Fixture) : Prop := lexLe2 (chronKey a) (chronKey b)

instance : DecidableRel chronAscRel := fun a b =>
  inferInstanceAs (Decidable (lexLe2 (chronKey a) (chronKey b)))

instance : IsTotal Fixture chronAscRel :=
  ⟨fun a b => lexLe2_total (chronKey a) (chronKey b)⟩

instance : IsTrans Fixture chronAscRel :=
  ⟨fun _ _ _ h1 h2 => lexLe2_trans h1 h2⟩

/-- Descending `(date, time)` order (`sort(..., reverse=True)`). -/
def chronDescRel (a b : Fixture) : Prop := lexLe2 (chronKey b) (chronKey a)

instance : DecidableRel chronDescRel := fun a b =>
  inferInstanceAs (Decidable (lexLe2 (chronKey b) (chronKey a)))

instance : IsTotal Fixture chronDescRel :=
  ⟨fun a b => lexLe2_total (chronKey b) (chronKey a)⟩

instance : IsTrans Fixture chronDescRel :=
  ⟨fun _ _ _ h1 h2 => lexLe2_trans h2 h1⟩

/-- The winner of one dedupe group: sort descending by
`(priority, completeness, updated_at)` (stably) and take the first. -/
def selectBest (g : List Fixture) : Option Fixture :=
  (List.insertionSort mergeDescRel g).head?

/-- `merge.dedupe`: group by `fixtureKey`, keep each group's winner, then
sort the result chronologically by `(date, time)` (stable sort, as in
Python). -/
def dedupe (tbl : List (String × String)) (fixtures : List Fixture) : List Fixture :=
  List.insertionSort chronAscRel
    ((groupBy (fixtureKey tbl) fixtures).filterMap (fun kg => selectBest kg.2))

/-- The duplicate-collapser grouping key: normalised `(home, away)` pair. -/
def pairKey (tbl : List (String × String)) (f : Fixture) : String × String :=
  (_norm_team tbl f.home, _norm_team tbl f.away)

/-- Groups built by `collapse_future_duplicates`: non-`FT` fixtures grouped
by normalised team pair (`FT` fixtures are skipped by the loop). -/
def collapseGroups (tbl : List (String × String)) (fs : List Fixture) :
    List ((String × String) × List Fixture) :=
  groupBy (pairKey tbl) (fs.filter (fun f => decide (f.status ≠ Status.FT)))

/-- The id kept for one group: the sole member's id for a singleton group,
otherwise the id of the first element of the group sorted by `(date, time)`
(Python `sorted` is stable). -/
def keepIdsOfGroup (g : List Fixture) : List String :=
  if g.length = 1 then (g.head?.map Fixture.id).toList
  else (((List.insertionSort chronAscRel g).head?).map Fixture.id).toList

/-- The `keep_ids` set of `collapse_future_duplicates` (a list; only
membership is ever queried). -/
def collapse_keep_ids (tbl : List (String × String)) (fs : List Fixture) :
    List String :=
  (collapseGroups tbl fs).flatMap (fun kg => keepIdsOfGroup kg.2)

/-- `merge.collapse_future_duplicates`: keep `f` when it is `FT`, or its
team-pair key is in the groups and its id was kept, or its key is not in
the groups at all; then sort by `(date, time)`. -/
def collapse_future_duplicates (tbl : List (String × String))
    (fixtures : List Fixture) : List Fixture :=
  List.insertionSort chronAscRel
    (fixtures.filter (fun f => decide
      (f.status = Status.FT ∨
       (pairKey tbl f ∈ (collapseGroups tbl fixtures).map Prod.fst ∧
        f.id ∈ collapse_keep_ids tbl fixtures) ∨
       pairKey tbl f ∉ (collapseGroups tbl fixtures).map Prod.fst)))

/-! Civil-date arithmetic (`datetime.date`/`datetime.timedelta`), used by
`iso_z` and the window bounds.  Standard days-from-civil conversion with
floor division. -/

/-- Days since 1970-01-01 of the civil date `(y, m, d)` (proleptic
Gregorian). -/
def daysFromCivil (y m d : Int) : Int :=
  let y2 := y - (if m ≤ 2 then 1 else 0)
  let era := y2.fdiv 400
  let yoe := y2 - era * 400
  let mp := (m + 9).emod 12
  let doy := (153 * mp + 2).fdiv 5 + d - 1
  let doe := yoe * 365 + yoe.fdiv 4 - yoe.fdiv 100 + doy
  era * 146097 + doe - 719468

/-- Civil date `(y, m, d)` of a days-since-1970-01-01 count. -/
def civilFromDays (z0 : Int) : Int × Int × Int :=
  let z := z0 + 719468
  let era := z.fdiv 146097
  let doe := z - era * 146097
  let yoe := (doe - doe.fdiv 1460 + doe.fdiv 36524 - doe.fdiv 146096).fdiv 365
  let doy := doe - (365 * yoe + yoe.fdiv 4 - yoe.fdiv 100)
  let mp := (5 * doy + 2).fdiv 153
  let d := doy - (153 * mp + 2).fdiv 5 + 1
  let m := mp + (if mp < 10 then 3 else -9)
  (yoe + era * 400 + (if m ≤ 2 then 1 else 0), m, d)

/-- Zero-pad a natural number to two digits. -/
def pad2 (n : Nat) : String := if n < 10 then "0" ++ toString n else toString n

/-- Zero-pad a natural number to four digits. -/
def pad4 (n : Nat) : String :=
  if n < 10 then "000" ++ toString n
  else if n < 100 then "00" ++ toString n
  else if n < 1000 then "0" ++ toString n
  else toString n

/-- Format a civil date as `YYYY-MM-DD`. -/
def formatCivil : Int × Int × Int → String
  | (y, m, d) => pad4 y.toNat ++ "-" ++ pad2 m.toNat ++ "-" ++ pad2 d.toNat

/-- Parse `YYYY-MM-DD` (the code only builds such strings via
`date.isoformat()`; malformed input would raise in Python and defaults
to zero fields here). -/
def parseDate (s : String) : Int × Int × Int :=
  match splitOnChar '-' s.data with
  | [y, m, d] => ((pyInt y).getD 0, (pyInt m).getD 0, (pyInt d).getD 0)
  | _ => (0, 0, 0)

/-- `(now + timedelta(days=n)).date().isoformat()` as date-string
arithmetic: shift an ISO date by `n` days. -/
def addDaysIso (s : String) (n : Int) : String :=
  let c := parseDate s
  formatCivil (civilFromDays (daysFromCivil c.1 c.2.1 c.2.2 + n))

/-- Minutes since the epoch of the naive civil datetime `(date, time)`
with zero seconds (`datetime.fromisoformat(f"{date}T{time}:00")`). -/
def naiveMinutes (date time : String) : Int :=
  let c := parseDate date
  daysFromCivil c.1 c.2.1 c.2.2 * 1440 + ((_minutes time).getD 0)

/-- `utils.iso_z` applied to the naive kickoff datetime.  A naive datetime
passed to `astimezone(timezone.utc)` is interpreted in the **process-local
system timezone**, so the conversion is parameterised by `sysOff`, the
system zone's UTC offset in minutes as a function of the naive local
minutes value; the UTC instant is the naive value minus that offset. -/
def iso_z (sysOff : Int → Int) (naive : Int) : String :=
  let u := naive - sysOff naive
  let days := u.fdiv 1440
  let rem := (u.fmod 1440).toNat
  formatCivil (civilFromDays days) ++ "T" ++ pad2 (rem / 60) ++ ":" ++
    pad2 (rem % 60) ++ ":00Z"

/-- Epoch day of the last Sunday on or before the civil date
`(y, m, lastDay)` (epoch day 0, 1970-01-01, was a Thursday, so
`(z + 4) % 7 = 0` exactly on Sundays). -/
def lastSundayEpoch (y m lastDay : Int) : Int :=
  let d := daysFromCivil y m lastDay
  d - (d + 4).emod 7

/-- Modelled from the spec: the Europe/London UTC offset (minutes) of a
naive civil datetime — the interpretation §4.5 prescribes for kickoff
conversion (the repository's `zoneinfo` database is not part of `src/`).
British Summer Time (+60) runs from 01:00 on the last Sunday of March to
02:00 local on the last Sunday of October; otherwise GMT (+0). -/
def londonOffset (naive : Int) : Int :=
  let y := (civilFromDays (naive.fdiv 1440)).1
  let bstStart := lastSundayEpoch y 3 31 * 1440 + 60
  let bstEnd := lastSundayEpoch y 10 31 * 1440 + 120
  if bstStart ≤ naive ∧ naive < bstEnd then 60 else 0

/-- Modelled from the spec: `first_kickoff` as §4.5 describes it — the
local `(date, time)` read as Europe/London civil time with zero seconds,
converted to a UTC instant and formatted ISO-8601 `Z`. -/
def londonKickoffIso (date time : String) : String :=
  iso_z londonOffset (naiveMinutes date time)

/-- Sort key of the competitions list:
`(-popularity, -match_count, first_kickoff)` ascending. -/
def compRank (c : Competition) : Int × Int × String :=
  (-c.popularity, -(c.match_count : Int), c.first_kickoff)

/-- Ascending order on `compRank`. -/
def compAscRel (a b : Competition) : Prop := lexLe3 (compRank a) (compRank b)

instance : DecidableRel compAscRel := fun a b =>
  inferInstanceAs (Decidable (lexLe3 (compRank a) (compRank b)))

instance : IsTotal Competition compAscRel :=
  ⟨fun a b => lexLe3_total (compRank a) (compRank b)⟩

instance : IsTrans Competition compAscRel :=
  ⟨fun _ _ _ h1 h2 => lexLe3_trans h1 h2⟩

/-- `merge.competitions_from_fixtures`: group by the literal competition
name, build each aggregate (slug, popularity, size, first kickoff of the
chronologically earliest member), then sort by
`(-popularity, -match_count, first_kickoff)`.  `sysOff` is the system
timezone offset used by `iso_z` (see there). -/
def competitions_from_fixtures (sysOff : Int → Int) (fixtures : List Fixture) :
    List Competition :=
  List.insertionSort compAscRel
    ((groupBy (fun f => f.competition) fixtures).map (fun kg =>
      let fk := match (List.insertionSort chronAscRel kg.2).head? with
        | some first => iso_z sysOff (naiveMinutes first.date first.time)
        | none => ""
      { name := kg.1, slug := slugify kg.1, popularity := popularity_score kg.1,
        match_count := kg.2.length, first_kickoff := fk }))

/-! Window selector (`backend/main.py`, `build_cmd`). -/

/-- The placeholder filter applied to the deduped list in `build_cmd`. -/
def filter_placeholders (fs : List Fixture) : List Fixture :=
  fs.filter (fun f => !(is_placeholder_team f.home || is_placeholder_team f.away))

/-- The `upcoming` window: `date ≥ today` and (`date ≤ today + days_forward`
or (`source == "scraper"` and `date ≤ today + scraper_days_forward`)).
Dates are compared as ISO strings, exactly as in the code. -/
def upcomingWindow (today : String) (days_forward scraper_days_forward : Int)
    (merged : List Fixture) : List Fixture :=
  merged.filter (fun f => decide
    (strLe today f.date ∧
     (strLe f.date (addDaysIso today days_forward) ∨
      (f.source = "scraper" ∧ strLe f.date (addDaysIso today scraper_days_forward)))))

/-- The `recent` predicate: within the back-window and finished or with a
non-empty (stripped) score. -/
def recentPredB (today : String) (results_days_back : Int) (f : Fixture) : Bool :=
  decide (strLe (addDaysIso today (-results_days_back)) f.date ∧ strLe f.date today) &&
  ((f.status == Status.FT) || !(pyStrip (f.score.getD "").data).isEmpty)

/-- The `recent` list with its fallback: if no fixture matches the recent
window, take all `FT` fixtures newer than the fallback cutoff, sort them
descending by `(date, time)` and keep the first 50. -/
def resultsList (today : String) (results_days_back results_fallback_days : Int)
    (merged : List Fixture) : List Fixture :=
  let recent := merged.filter (recentPredB today results_days_back)
  if recent.isEmpty then
    (List.insertionSort chronDescRel
      (merged.filter (fun f =>
        (f.status == Status.FT) &&
        decide (strLe (addDaysIso today (-results_fallback_days)) f.date)))).take 50
  else recent

/-! Generic lemmas about the stable sort and the ordered grouping fold. -/

section SortLemmas

variable {α : Type} (r : α → α → Prop) [DecidableRel r]

/-- Stability of the winner: the head of the (stable) insertion sort occurs
in the input list, and every input element strictly before it fails `r z w`
— i.e. the head is the first input element attaining the best key. -/
theorem insertionSort_head_stable :
    ∀ (l : List α) (w : α), (List.insertionSort r l).head? = some w →
      ∃ p s, l = p ++ w :: s ∧ ∀ z ∈ p, ¬ r z w := by
  intro l
  induction l with
  | nil => intro w h; simp [List.insertionSort] at h
  | cons x xs ih =>
      intro w h
      rw [List.insertionSort] at h
      rcases hs : List.insertionSort r xs with _ | ⟨y, ys⟩
      · rw [hs] at h
        simp only [List.orderedInsert, List.head?_cons, Option.some.injEq] at h
        exact ⟨[], xs, by simp [h], by simp⟩
      · rw [hs] at h
        by_cases hr : r x y
        · simp only [List.orderedInsert, if_pos hr, List.head?_cons,
            Option.some.injEq] at h
          exact ⟨[], xs, by simp [h], by simp⟩
        · simp only [List.orderedInsert, if_neg hr, List.head?_cons,
            Option.some.injEq] at h
          obtain ⟨p, s, hxs, hp⟩ := ih w (by rw [hs]; simp [h])
          refine ⟨x :: p, s, by simp [hxs], ?_⟩
          intro z hz
          rcases List.mem_cons.mp hz with rfl | hz2
          · exact h ▸ hr
          · exact hp z hz2

/-- The head of the insertion sort is `r`-related to every input element. -/
theorem insertionSort_head_max [IsTotal α r] [IsTrans α r] (l : List α) (w : α)
    (h : (List.insertionSort r l).head? = some w) : ∀ x ∈ l, r w x := by
  have hsorted := List.sorted_insertionSort r l
  rcases he : List.insertionSort r l with _ | ⟨y, ys⟩
  · rw [he] at h; simp at h
  · rw [he] at h
    simp only [List.head?_cons, Option.some.injEq] at h
    subst h
    intro x hx
    have hx2 : x ∈ List.insertionSort r l :=
      (List.perm_insertionSort r l).mem_iff.mpr hx
    rw [he] at hx2
    rcases List.mem_cons.mp hx2 with rfl | hx3
    · exact (IsTotal.total x x).elim id id
    · rw [he] at hsorted
      exact List.rel_of_sorted_cons hsorted x hx3

/-- The sort of a non-empty list has a head. -/
theorem insertionSort_head_isSome (l : List α) (hl : l ≠ []) :
    ∃ w, (List.insertionSort r l).head? = some w := by
  rcases he : List.insertionSort r l with _ | ⟨y, ys⟩
  · have hp := List.perm_insertionSort r l
    rw [he] at hp
    exact absurd hp.symm.eq_nil hl
  · exact ⟨y, by simp⟩

/-- The head of the sort is a member of the input. -/
theorem insertionSort_head_mem {l : List α} {w : α}
    (h : (List.insertionSort r l).head? = some w) : w ∈ l := by
  obtain ⟨p, s, hdec, _⟩ := insertionSort_head_stable r l w h
  rw [hdec]
  exact List.mem_append_right _ (List.mem_cons_self _ _)

end SortLemmas

section GroupByLemmas

variable {α κ : Type} [DecidableEq κ]

/-- Description of membership after one `addToGroup` step. -/
theorem mem_addToGroup {k : κ} {f : α} {k1 : κ} {g1 : List α} :
    ∀ {acc : List (κ × List α)}, (k1, g1) ∈ addToGroup k f acc →
      (k1, g1) ∈ acc ∨ (k1 = k ∧ (g1 = [f] ∨ ∃ g, (k, g) ∈ acc ∧ g1 = g ++ [f])) := by
  intro acc
  induction acc with
  | nil =>
      intro h
      simp only [addToGroup, List.mem_singleton, Prod.mk.injEq] at h
      exact Or.inr ⟨h.1, Or.inl h.2⟩
  | cons p rest ih =>
      intro h
      obtain ⟨k2, g2⟩ := p
      by_cases hk : k2 = k
      · subst hk
        rw [show addToGroup k2 f ((k2, g2) :: rest) = (k2, g2 ++ [f]) :: rest from
          by simp [addToGroup]] at h
        rcases List.mem_cons.mp h with he | h2
        · rw [Prod.mk.injEq] at he
          exact Or.inr ⟨he.1, Or.inr ⟨g2, List.mem_cons_self _ _, he.2⟩⟩
        · exact Or.inl (List.mem_cons_of_mem _ h2)
      · rw [show addToGroup k f ((k2, g2) :: rest) = (k2, g2) :: addToGroup k f rest from
          by simp [addToGroup, hk]] at h
        rcases List.mem_cons.mp h with he | h2
        · exact Or.inl (List.mem_cons.mpr (Or.inl he))
        · rcases ih h2 with h3 | ⟨he, h4⟩
          · exact Or.inl (List.mem_cons_of_mem _ h3)
          · refine Or.inr ⟨he, ?_⟩
            rcases h4 with h4 | ⟨g3, hg3, he2⟩
            · exact Or.inl h4
            · exact Or.inr ⟨g3, List.mem_cons_of_mem _ hg3, he2⟩

/-- `addToGroup` leaves the key list unchanged when the key is present,
else appends it. -/
theorem keys_addToGroup (k : κ) (f : α) (acc : List (κ × List α)) :
    (addToGroup k f acc).map Prod.fst =
      if k ∈ acc.map Prod.fst then acc.map Prod.fst
      else acc.map Prod.fst ++ [k] := by
  induction acc with
  | nil => simp [addToGroup]
  | cons p rest ih =>
      obtain ⟨k2, g⟩ := p
      by_cases hk : k2 = k
      · subst hk
        simp [addToGroup]
      · have hne : ¬ k = k2 := fun h => hk h.symm
        simp only [addToGroup, if_neg hk, List.map_cons, List.mem_cons, hne,
          false_or, ih]
        by_cases h2 : k ∈ rest.map Prod.fst
        · simp [h2]
        · simp [h2]

/-- Existing entries survive an `addToGroup` step (their group only
possibly grows). -/
theorem addToGroup_preserves {k2 : κ} {g : List α} (k : κ) (f : α) :
    ∀ {acc : List (κ × List α)}, (k2, g) ∈ acc →
      ∃ g2, (k2, g2) ∈ addToGroup k f acc ∧ ∀ x ∈ g, x ∈ g2 := by
  intro acc
  induction acc with
  | nil => intro h; simp at h
  | cons p rest ih =>
      intro h
      obtain ⟨k3, g3⟩ := p
      by_cases hk : k3 = k
      · subst hk
        rcases List.mem_cons.mp h with he | h2
        · rw [Prod.mk.injEq] at he
          obtain ⟨he1, he2⟩ := he
          subst he1; subst he2
          exact ⟨g ++ [f], by simp [addToGroup], fun x hx => List.mem_append_left _ hx⟩
        · exact ⟨g, by simp [addToGroup, List.mem_cons_of_mem _ h2], fun x hx => hx⟩
      · rcases List.mem_cons.mp h with he | h2
        · rw [Prod.mk.injEq] at he
          obtain ⟨he1, he2⟩ := he
          subst he1; subst he2
          exact ⟨g, by simp [addToGroup, hk], fun x hx => hx⟩
        · obtain ⟨g2, hg2, hsub⟩ := ih h2
          exact ⟨g2, by simp [addToGroup, hk, List.mem_cons_of_mem _ hg2], hsub⟩

/-- After `addToGroup k f acc`, `f` is in the group keyed `k`. -/
theorem addToGroup_mem_self (k : κ) (f : α) (acc : List (κ × List α)) :
    ∃ g, (k, g) ∈ addToGroup k f acc ∧ f ∈ g := by
  induction acc with
  | nil => exact ⟨[f], by simp [addToGroup], by simp⟩
  | cons p rest ih =>
      obtain ⟨k2, g2⟩ := p
      by_cases hk : k2 = k
      · subst hk
        exact ⟨g2 ++ [f], by simp [addToGroup], by simp⟩
      · obtain ⟨g, hg, hf⟩ := ih
        exact ⟨g, by simp [addToGroup, hk, List.mem_cons_of_mem _ hg], hf⟩

/-- When the key is absent, `addToGroup` appends a fresh singleton entry. -/
theorem addToGroup_of_notMem {k : κ} {acc : List (κ × List α)} (f : α)
    (h : ∀ p ∈ acc, p.1 ≠ k) : addToGroup k f acc = acc ++ [(k, [f])] := by
  induction acc with
  | nil => simp [addToGroup]
  | cons p rest ih =>
      obtain ⟨k2, g2⟩ := p
      have hk : k2 ≠ k := h (k2, g2) (List.mem_cons_self _ _)
      simp only [addToGroup, if_neg hk, List.cons_append, List.cons.injEq, true_and]
      exact ih (fun p hp => h p (List.mem_cons_of_mem _ hp))

/-- The combined invariant carried through the grouping fold: every entry
is a non-empty group whose members all carry that entry's key and satisfy
an arbitrary property `P0` of the input elements. -/
theorem groupBy_foldl_inv (key : α → κ) (P0 : α → Prop) :
    ∀ (l : List α) (acc : List (κ × List α)),
      (∀ p ∈ acc, p.2 ≠ [] ∧ ∀ x ∈ p.2, key x = p.1 ∧ P0 x) →
      (∀ f ∈ l, P0 f) →
      ∀ p ∈ l.foldl (fun acc f => addToGroup (key f) f acc) acc,
        p.2 ≠ [] ∧ ∀ x ∈ p.2, key x = p.1 ∧ P0 x := by
  intro l
  induction l with
  | nil => intro acc hacc _ p hp; exact hacc p hp
  | cons f fs ih =>
      intro acc hacc hl p hp
      rw [List.foldl_cons] at hp
      refine ih _ ?_ (fun x hx => hl x (List.mem_cons_of_mem _ hx)) p hp
      intro q hq
      obtain ⟨k1, g1⟩ := q
      rcases mem_addToGroup hq with h2 | ⟨hk1, h3⟩
      · exact hacc _ h2
      · subst hk1
        rcases h3 with rfl | ⟨g, hg, rfl⟩
        · refine ⟨by simp, ?_⟩
          intro x hx
          rcases List.mem_singleton.mp hx with rfl
          exact ⟨rfl, hl x (List.mem_cons_self _ _)⟩
        · have hgacc := hacc _ hg
          refine ⟨by simp, ?_⟩
          intro x hx
          rcases List.mem_append.mp hx with hx2 | hx2
          · exact hgacc.2 x hx2
          · rcases List.mem_singleton.mp hx2 with rfl
            exact ⟨rfl, hl x (List.mem_cons_self _ _)⟩

/-- Keys stay duplicate-free through the grouping fold. -/
theorem groupBy_foldl_keys_nodup (key : α → κ) :
    ∀ (l : List α) (acc : List (κ × List α)), (acc.map Prod.fst).Nodup →
      ((l.foldl (fun acc f => addToGroup (key f) f acc) acc).map Prod.fst).Nodup := by
  intro l
  induction l with
  | nil => intro acc h; exact h
  | cons f fs ih =>
      intro acc h
      rw [List.foldl_cons]
      refine ih _ ?_
      rw [keys_addToGroup]
      by_cases h2 : key f ∈ acc.map Prod.fst
      · simpa [h2] using h
      · simp only [h2, if_false]
        rw [List.nodup_append]
        exact ⟨h, List.nodup_singleton _,
          fun a ha hb => h2 ((List.mem_singleton.mp hb) ▸ ha)⟩

/-- An entry's members survive the rest of the grouping fold. -/
theorem groupBy_foldl_preserves (key : α → κ) :
    ∀ (l : List α) (acc : List (κ × List α)) {k : κ} {g : List α} {x : α},
      (k, g) ∈ acc → x ∈ g →
      ∃ g2, (k, g2) ∈ l.foldl (fun acc f => addToGroup (key f) f acc) acc ∧ x ∈ g2 := by
  intro l
  induction l with
  | nil => intro acc k g x hg hx; exact ⟨g, hg, hx⟩
  | cons f fs ih =>
      intro acc k g x hg hx
      rw [List.foldl_cons]
      obtain ⟨g2, hg2, hsub⟩ := addToGroup_preserves (key f) f hg
      exact ih _ hg2 (hsub x hx)

/-- Every input element ends up in the group keyed by its key. -/
theorem groupBy_foldl_presence (key : α → κ) :
    ∀ (l : List α) (acc : List (κ × List α)) {x : α}, x ∈ l →
      ∃ g, (key x, g) ∈ l.foldl (fun acc f => addToGroup (key f) f acc) acc ∧ x ∈ g := by
  intro l
  induction l with
  | nil => intro acc x hx; simp at hx
  | cons f fs ih =>
      intro acc x hx
      rw [List.foldl_cons]
      rcases List.mem_cons.mp hx with rfl | hx2
      · obtain ⟨g, hg, hf⟩ := addToGroup_mem_self (key x) x acc
        exact groupBy_foldl_preserves key fs _ hg hf
      · exact ih _ hx2

/-- When all keys of the input are pairwise distinct and fresh relative to
the accumulator, the grouping fold appends one singleton group per input
element, in input order. -/
theorem groupBy_foldl_singletons (key : α → κ) :
    ∀ (l : List α) (acc : List (κ × List α)),
      (∀ f ∈ l, ∀ p ∈ acc, p.1 ≠ key f) → (l.map key).Nodup →
      l.foldl (fun acc f => addToGroup (key f) f acc) acc =
        acc ++ l.map (fun f => (key f, [f])) := by
  intro l
  induction l with
  | nil => intro acc _ _; simp
  | cons f fs ih =>
      intro acc hfresh hnd
      rw [List.map_cons, List.nodup_cons] at hnd
      rw [List.foldl_cons,
        addToGroup_of_notMem f (fun p hp => hfresh f (List.mem_cons_self _ _) p hp),
        ih _ ?_ hnd.2]
      · simp
      · intro f2 hf2 p hp
        rcases List.mem_append.mp hp with hp2 | hp2
        · exact hfresh f2 (List.mem_cons_of_mem _ hf2) p hp2
        · rcases List.mem_singleton.mp hp2 with rfl
          intro hcontra
          have hc : key f = key f2 := hcontra
          exact hnd.1 (by rw [hc]; exact List.mem_map_of_mem key hf2)

/-- In a list with duplicate-free keys, the group at a key is unique. -/
theorem nodup_keys_entry_inj {L : List (κ × List α)}
    (h : (L.map Prod.fst).Nodup) {k : κ} {g1 g2 : List α}
    (h1 : (k, g1) ∈ L) (h2 : (k, g2) ∈ L) : g1 = g2 := by
  induction L with
  | nil => simp at h1
  | cons p rest ih =>
      obtain ⟨k0, g0⟩ := p
      rw [List.map_cons, List.nodup_cons] at h
      rcases List.mem_cons.mp h1 with he1 | h1b
      · rw [Prod.mk.injEq] at he1
        rcases List.mem_cons.mp h2 with he2 | h2b
        · rw [Prod.mk.injEq] at he2
          exact he1.2.trans he2.2.symm
        · exact absurd (by rw [← he1.1]; exact List.mem_map.mpr ⟨(k, g2), h2b, rfl⟩) h.1
      · rcases List.mem_cons.mp h2 with he2 | h2b
        · rw [Prod.mk.injEq] at he2
          exact absurd (by rw [← he2.1]; exact List.mem_map.mpr ⟨(k, g1), h1b, rfl⟩) h.1
        · exact ih h.2 h1b h2b

/-- Groups of `groupBy` are non-empty, and members carry the group key and
come from the input. -/
theorem groupBy_group_props (key : α → κ) {fs : List α} {k : κ} {g : List α}
    (h : (k, g) ∈ groupBy key fs) : g ≠ [] ∧ ∀ x ∈ g, key x = k ∧ x ∈ fs :=
  groupBy_foldl_inv key (· ∈ fs) fs [] (by simp) (fun _ hf => hf) (k, g) h

/-- The keys of `groupBy` are pairwise distinct. -/
theorem groupBy_keys_nodup (key : α → κ) (fs : List α) :
    ((groupBy key fs).map Prod.fst).Nodup :=
  groupBy_foldl_keys_nodup key fs [] (by simp)

/-- Every input element is in the group of its key. -/
theorem groupBy_presence (key : α → κ) {fs : List α} {x : α} (h : x ∈ fs) :
    ∃ g, (key x, g) ∈ groupBy key fs ∧ x ∈ g :=
  groupBy_foldl_presence key fs [] h

/-- With pairwise-distinct keys, grouping yields singleton groups in input
order. -/
theorem groupBy_singletons (key : α → κ) {fs : List α} (h : (fs.map key).Nodup) :
    groupBy key fs = fs.map (fun f => (key f, [f])) := by
  have h2 := groupBy_foldl_singletons key fs [] (by simp) h
  simpa using h2

end GroupByLemmas

/-! Lemmas about `selectBest` and `dedupe`. -/

/-- A non-empty group has a winner. -/
theorem selectBest_of_ne_nil {g : List Fixture} (h : g ≠ []) :
    ∃ w, selectBest g = some w :=
  insertionSort_head_isSome mergeDescRel g h

/-- The winner is a member of its group. -/
theorem selectBest_mem {g : List Fixture} {w : Fixture}
    (h : selectBest g = some w) : w ∈ g := by
  obtain ⟨p, s, hg, _⟩ := insertionSort_head_stable mergeDescRel g w h
  rw [hg]
  exact List.mem_append_right _ (List.mem_cons_self _ _)

/-- The winner of a singleton group is its sole member. -/
theorem selectBest_singleton (f : Fixture) : selectBest [f] = some f := rfl

/-- Mapping the grouping key over the winners of a group list recovers the
group keys (for group lists satisfying the `groupBy` invariant). -/
theorem winners_map_key (key : Fixture → String × Option Int × String × String × String) :
    ∀ L : List ((String × Option Int × String × String × String) × List Fixture),
      (∀ p ∈ L, p.2 ≠ [] ∧ ∀ x ∈ p.2, key x = p.1) →
      (L.filterMap (fun kg => selectBest kg.2)).map key = L.map Prod.fst := by
  intro L
  induction L with
  | nil => intro _; simp
  | cons p rest ih =>
      intro h
      obtain ⟨k, g⟩ := p
      have hp := h (k, g) (List.mem_cons_self _ _)
      obtain ⟨w, hw⟩ := selectBest_of_ne_nil hp.1
      have hkey : key w = k := hp.2 w (selectBest_mem hw)
      simp only [List.filterMap_cons, hw, List.map_cons]
      rw [ih (fun q hq => h q (List.mem_cons_of_mem _ hq)), hkey]

/-- Membership in `dedupe`: exactly the winners of the groups. -/
theorem mem_dedupe_iff {tbl : List (String × String)} {fs : List Fixture}
    {x : Fixture} :
    x ∈ dedupe tbl fs ↔
      ∃ kg ∈ groupBy (fixtureKey tbl) fs, selectBest kg.2 = some x := by
  unfold dedupe
  rw [(List.perm_insertionSort chronAscRel _).mem_iff, List.mem_filterMap]

/-- The deduped list is chronologically sorted. -/
theorem dedupe_sorted (tbl : List (String × String)) (fs : List Fixture) :
    List.Sorted chronAscRel (dedupe tbl fs) :=
  List.sorted_insertionSort chronAscRel _

/-- The grouping keys of the deduped list are pairwise distinct. -/
theorem dedupe_keys_nodup (tbl : List (String × String)) (fs : List Fixture) :
    ((dedupe tbl fs).map (fixtureKey tbl)).Nodup := by
  have hperm : (dedupe tbl fs).map (fixtureKey tbl) =
      (List.insertionSort chronAscRel
        ((groupBy (fixtureKey tbl) fs).filterMap (fun kg => selectBest kg.2))).map
        (fixtureKey tbl) := rfl
  have hp := (List.perm_insertionSort chronAscRel
    ((groupBy (fixtureKey tbl) fs).filterMap (fun kg => selectBest kg.2))).map
    (fixtureKey tbl)
  rw [hperm]
  refine hp.nodup_iff.mpr ?_
  rw [winners_map_key (fixtureKey tbl) _
    (fun p hp2 => ⟨(groupBy_group_props (fixtureKey tbl) hp2).1,
      fun x hx => ((groupBy_group_props (fixtureKey tbl) hp2).2 x hx).1⟩)]
  exact groupBy_keys_nodup (fixtureKey tbl) fs

/-- Totality turns a failed comparison into a strict one. -/
theorem lexLt3_of_not_le {p q : Int × Int × String} (h : ¬ lexLe3 q p) :
    lexLe3 p q ∧ p ≠ q :=
  ⟨(lexLe3_total p q).resolve_right h,
   fun he => h (by rw [← he]; exact lexLe3_refl p)⟩

/-- Winners of the singleton groups of an already-deduped list are the
list itself. -/
theorem filterMap_selectBest_map (tbl : List (String × String)) :
    ∀ l : List Fixture,
      (l.map (fun f => (fixtureKey tbl f, [f]))).filterMap
        (fun kg => selectBest kg.2) = l := by
  intro l
  induction l with
  | nil => simp
  | cons f fs ih =>
      rw [List.map_cons, List.filterMap_cons]
      simp only [selectBest_singleton]
      rw [ih]

/-- A scraped observation of a match: complete (venue, `FT`, score) and
fresher, but from the lowest-trust source. -/
def fixtureScraperA : Fixture :=
  { id := "a1", date := "2025-11-08", time := "19:30",
    competition := "All-Ireland Senior Football Championship",
    home := "Dublin", away := "Kerry", venue := some "Croke Park",
    status := Status.FT, score := some "1-10 - 0-9", source := "scraper",
    updated_at := "2025-11-09T10:00:00Z" }

/-- The registry's observation of the same match: no venue, not finished,
older, but from the highest-trust source; its `19:32` time buckets with
`19:30`. -/
def fixtureRegistryB : Fixture :=
  { id := "b1", date := "2025-11-08", time := "19:32",
    competition := "All-Ireland Senior Football Championship",
    home := "Dublin", away := "Kerry", venue := none,
    status := Status.scheduled, score := some "", source := "gaa_gms",
    updated_at := "2025-11-01T10:00:00Z" }

/-- C1: within every dedupe group the kept fixture is the candidate that is
maximal under descending lexicographic `(sourcePriority, completeness,
updatedAt)`; on a full tie the first candidate in input order is kept, and
it is the group's only representative in the output.  In particular the
registry fixture `fixtureRegistryB` beats the scraper fixture
`fixtureScraperA` despite the latter's perfect completeness and fresher
timestamp. -/
theorem dedupe_keeps_first_maximal :
    (∀ (tbl : List (String × String)) (fs : List Fixture) k g,
      (k, g) ∈ groupBy (fixtureKey tbl) fs →
      ∃ w, selectBest g = some w ∧
        (∀ x ∈ g, lexLe3 (mergeRank x) (mergeRank w)) ∧
        (∃ p s, g = p ++ w :: s ∧
          ∀ z ∈ p, lexLe3 (mergeRank z) (mergeRank w) ∧ mergeRank z ≠ mergeRank w) ∧
        (∀ x ∈ g, (x ∈ dedupe tbl fs ↔ x = w))) ∧
    dedupe [] [fixtureScraperA, fixtureRegistryB] = [fixtureRegistryB] := by
  constructor
  · intro tbl fs k g hg
    have hprops := groupBy_group_props (fixtureKey tbl) hg
    obtain ⟨w, hw⟩ := selectBest_of_ne_nil hprops.1
    refine ⟨w, hw, ?_, ?_, ?_⟩
    · intro x hx
      exact insertionSort_head_max mergeDescRel g w hw x hx
    · obtain ⟨p, s, hdec, hfirst⟩ := insertionSort_head_stable mergeDescRel g w hw
      exact ⟨p, s, hdec, fun z hz => lexLt3_of_not_le (hfirst z hz)⟩
    · intro x hx
      constructor
      · intro hxd
        obtain ⟨kg2, hkg2, hsel2⟩ := mem_dedupe_iff.mp hxd
        obtain ⟨k2, g2⟩ := kg2
        have hprops2 := groupBy_group_props (fixtureKey tbl) hkg2
        have hx2 : x ∈ g2 := selectBest_mem hsel2
        have hk2k : k2 = k := (hprops2.2 x hx2).1.symm.trans (hprops.2 x hx).1
        rw [hk2k] at hkg2
        have hgg : g2 = g :=
          nodup_keys_entry_inj (groupBy_keys_nodup (fixtureKey tbl) fs) hkg2 hg
        rw [hgg] at hsel2
        exact Option.some.inj (hsel2.symm.trans hw)
      · rintro rfl
        exact mem_dedupe_iff.mpr ⟨(k, g), hg, hw⟩
  · decide

/-- Witness instantiating C1 on the concrete two-fixture group. -/
theorem dedupe_keeps_first_maximal_witness :
    ∃ w, selectBest [fixtureScraperA, fixtureRegistryB] = some w ∧
      (∀ x ∈ [fixtureScraperA, fixtureRegistryB],
        lexLe3 (mergeRank x) (mergeRank w)) ∧
      (∃ p s, [fixtureScraperA, fixtureRegistryB] = p ++ w :: s ∧
        ∀ z ∈ p, lexLe3 (mergeRank z) (mergeRank w) ∧ mergeRank z ≠ mergeRank w) ∧
      (∀ x ∈ [fixtureScraperA, fixtureRegistryB],
        (x ∈ dedupe [] [fixtureScraperA, fixtureRegistryB] ↔ x = w)) :=
  dedupe_keeps_first_maximal.1 [] [fixtureScraperA, fixtureRegistryB]
    (fixtureKey [] fixtureScraperA) [fixtureScraperA, fixtureRegistryB] (by decide)

/-- C2: two input fixtures land in the same dedupe group exactly when they
agree on the grouping key `(date, timeBucket(time), normTeam(home),
normTeam(away), slugify(competition))`; concretely, `19:32` and `19:30`
both bucket to minute 1170 (= 19:30), so the two sample fixtures — equal
apart from bucketed time, completeness and source — share one group. -/
theorem grouping_same_iff_key_eq :
    (∀ (tbl : List (String × String)) (fs : List Fixture) (f f2 : Fixture),
      f ∈ fs → f2 ∈ fs →
      ((∃ k g, (k, g) ∈ groupBy (fixtureKey tbl) fs ∧ f ∈ g ∧ f2 ∈ g) ↔
        fixtureKey tbl f = fixtureKey tbl f2)) ∧
    _best_time_bucket "19:32" = some 1170 ∧
    _best_time_bucket "19:30" = some 1170 ∧
    ((fixtureKey [] fixtureRegistryB, [fixtureScraperA, fixtureRegistryB]) ∈
        groupBy (fixtureKey []) [fixtureScraperA, fixtureRegistryB] ∧
      fixtureScraperA ∈ [fixtureScraperA, fixtureRegistryB] ∧
      fixtureRegistryB ∈ [fixtureScraperA, fixtureRegistryB]) := by
  refine ⟨?_, by decide, by decide, by decide⟩
  intro tbl fs f f2 hf hf2
  constructor
  · rintro ⟨k, g, hg, hfg, hf2g⟩
    have hprops := groupBy_group_props (fixtureKey tbl) hg
    exact ((hprops.2 f hfg).1).trans ((hprops.2 f2 hf2g).1).symm
  · intro hkey
    obtain ⟨g, hg, hfg⟩ := groupBy_presence (fixtureKey tbl) hf
    obtain ⟨g2, hg2, hf2g⟩ := groupBy_presence (fixtureKey tbl) hf2
    rw [← hkey] at hg2
    have hgg : g2 = g :=
      nodup_keys_entry_inj (groupBy_keys_nodup (fixtureKey tbl) fs) hg2 hg
    exact ⟨fixtureKey tbl f, g, hg, hfg, hgg ▸ hf2g⟩

/-- Witness instantiating C2: the two sample fixtures do share a group. -/
theorem grouping_same_iff_key_eq_witness :
    ∃ k g, (k, g) ∈ groupBy (fixtureKey []) [fixtureScraperA, fixtureRegistryB] ∧
      fixtureScraperA ∈ g ∧ fixtureRegistryB ∈ g :=
  (grouping_same_iff_key_eq.1 [] [fixtureScraperA, fixtureRegistryB]
    fixtureScraperA fixtureRegistryB (by decide) (by decide)).mpr (by decide)

/-- C6: the reconciliation engine is idempotent — deduplicating an
already-deduplicated list returns it unchanged. -/
theorem dedupe_idempotent (tbl : List (String × String)) (fs : List Fixture) :
    dedupe tbl (dedupe tbl fs) = dedupe tbl fs := by
  have hsingle := groupBy_singletons (fixtureKey tbl) (dedupe_keys_nodup tbl fs)
  calc dedupe tbl (dedupe tbl fs)
      = List.insertionSort chronAscRel
          ((groupBy (fixtureKey tbl) (dedupe tbl fs)).filterMap
            (fun kg => selectBest kg.2)) := rfl
    _ = List.insertionSort chronAscRel
          (((dedupe tbl fs).map (fun f => (fixtureKey tbl f, [f]))).filterMap
            (fun kg => selectBest kg.2)) := by rw [hsingle]
    _ = List.insertionSort chronAscRel (dedupe tbl fs) := by
          rw [filterMap_selectBest_map]
    _ = dedupe tbl fs := (dedupe_sorted tbl fs).insertionSort_eq

/-! Lemmas about `collapse_future_duplicates` (claim C5). -/

/-- Membership in the collapsed list, unfolded to the Python keep
condition. -/
theorem mem_collapse_iff {tbl : List (String × String)} {fs : List Fixture}
    {x : Fixture} :
    x ∈ collapse_future_duplicates tbl fs ↔
      x ∈ fs ∧ (x.status = Status.FT ∨
        (pairKey tbl x ∈ (collapseGroups tbl fs).map Prod.fst ∧
         x.id ∈ collapse_keep_ids tbl fs) ∨
        pairKey tbl x ∉ (collapseGroups tbl fs).map Prod.fst) := by
  unfold collapse_future_duplicates
  rw [(List.perm_insertionSort chronAscRel _).mem_iff, List.mem_filter,
    decide_eq_true_iff]

/-- Every non-empty group keeps exactly one id: that of the first element
of its stable chronological sort. -/
theorem keepIdsOfGroup_eq {g : List Fixture} (h : g ≠ []) :
    ∃ w, (List.insertionSort chronAscRel g).head? = some w ∧
      keepIdsOfGroup g = [w.id] := by
  unfold keepIdsOfGroup
  by_cases hlen : g.length = 1
  · obtain ⟨x, rfl⟩ := List.length_eq_one.mp hlen
    exact ⟨x, rfl, by simp [hlen]⟩
  · obtain ⟨w, hw⟩ := insertionSort_head_isSome chronAscRel g h
    exact ⟨w, hw, by simp [hlen, hw]⟩

/-- Membership in `keep_ids`, reduced to the contributing group. -/
theorem mem_collapse_keep_ids {tbl : List (String × String)} {fs : List Fixture}
    {i : String} :
    i ∈ collapse_keep_ids tbl fs ↔
      ∃ kg ∈ collapseGroups tbl fs, i ∈ keepIdsOfGroup kg.2 := by
  unfold collapse_keep_ids
  rw [List.mem_flatMap]

/-- C5 amended: the duplicate collapser groups the non-`FT` fixtures by
normalised `(home, away)` pair; **provided the fixture ids are pairwise
distinct across the whole input**, every group with more than one member
contributes exactly its chronologically earliest member to the output,
every `FT` fixture survives, and the output is sorted ascending by
`(date, time)`.  The proviso is forced: ids are only source-scoped unique,
survival is decided by membership in the *global* `keep_ids` set, and a
cross-source collision with a kept id lets a non-earliest group member
survive (the counterexample below exhibits this). -/
theorem collapse_spec (tbl : List (String × String)) (fs : List Fixture)
    (hid : ∀ a ∈ fs, ∀ b ∈ fs, a.id = b.id → a = b) :
    (∀ f ∈ fs, f.status = Status.FT → f ∈ collapse_future_duplicates tbl fs) ∧
    (∀ k g, (k, g) ∈ collapseGroups tbl fs → 1 < g.length →
      ∃ w ∈ g, (∀ x ∈ g, lexLe2 (chronKey w) (chronKey x)) ∧
        (∀ x ∈ g, (x ∈ collapse_future_duplicates tbl fs ↔ x = w))) ∧
    List.Sorted chronAscRel (collapse_future_duplicates tbl fs) := by
  refine ⟨?_, ?_, List.sorted_insertionSort _ _⟩
  · intro f hf hft
    exact mem_collapse_iff.mpr ⟨hf, Or.inl hft⟩
  · intro k g hg _
    have hgprops := groupBy_group_props (pairKey tbl) hg
    obtain ⟨w, hw⟩ := insertionSort_head_isSome chronAscRel g hgprops.1
    have hwmem : w ∈ g := insertionSort_head_mem chronAscRel hw
    have hwfil := (hgprops.2 w hwmem).2
    have hwfs : w ∈ fs := List.mem_of_mem_filter hwfil
    have hkin : k ∈ (collapseGroups tbl fs).map Prod.fst :=
      List.mem_map.mpr ⟨(k, g), hg, rfl⟩
    refine ⟨w, hwmem, ?_, ?_⟩
    · intro x hx
      exact insertionSort_head_max chronAscRel g w hw x hx
    · intro x hx
      have hxfil := (hgprops.2 x hx).2
      have hxfs : x ∈ fs := List.mem_of_mem_filter hxfil
      have hxnft : x.status ≠ Status.FT := by
        have h2 := (List.mem_filter.mp hxfil).2
        rw [decide_eq_true_iff] at h2
        exact h2
      have hxkey : pairKey tbl x = k := (hgprops.2 x hx).1
      constructor
      · intro hxc
        obtain ⟨-, hdisj⟩ := mem_collapse_iff.mp hxc
        rcases hdisj with hft | ⟨-, hkeep⟩ | hnotin
        · exact absurd hft hxnft
        · obtain ⟨kg2, hkg2, hidin⟩ := mem_collapse_keep_ids.mp hkeep
          obtain ⟨k2, g2⟩ := kg2
          have h2props := groupBy_group_props (pairKey tbl) hkg2
          obtain ⟨w2, hw2, hkeq⟩ := keepIdsOfGroup_eq h2props.1
          rw [hkeq] at hidin
          have hidw2 : x.id = w2.id := List.mem_singleton.mp hidin
          have hw2g2 : w2 ∈ g2 := insertionSort_head_mem chronAscRel hw2
          have hw2fs : w2 ∈ fs := List.mem_of_mem_filter (h2props.2 w2 hw2g2).2
          have hxw2 : x = w2 := hid x hxfs w2 hw2fs hidw2
          have hk2 : k2 = k := by
            rw [← (h2props.2 w2 hw2g2).1, ← hxw2, hxkey]
          rw [hk2] at hkg2
          have hgg : g2 = g :=
            nodup_keys_entry_inj (groupBy_keys_nodup (pairKey tbl) _) hkg2 hg
          rw [hgg] at hw2
          exact hxw2.trans (Option.some.inj (hw2.symm.trans hw))
        · exact absurd (hxkey ▸ hkin) hnotin
      · rintro rfl
        refine mem_collapse_iff.mpr ⟨hwfs, Or.inr (Or.inl ⟨hxkey ▸ hkin, ?_⟩)⟩
        refine mem_collapse_keep_ids.mpr ⟨(k, g), hg, ?_⟩
        obtain ⟨w2, hw2, hkeq⟩ := keepIdsOfGroup_eq hgprops.1
        rw [hkeq]
        have hww : w2 = x := Option.some.inj (hw2.symm.trans hw)
        simp [hww]

/-- A scheduled fixture of the pair (Dublin, Kerry), the earlier one. -/
def fxDupEarly : Fixture :=
  { id := "d1", date := "2025-11-01", time := "14:00",
    competition := "County League", home := "Dublin", away := "Kerry",
    source := "ics", updated_at := "2025-10-01T00:00:00Z" }

/-- The same pairing republished for a later date under a differently
spelled competition string. -/
def fxDupLate : Fixture :=
  { id := "d2", date := "2025-11-15", time := "14:00",
    competition := "CountyLeague", home := "Dublin", away := "Kerry",
    source := "ics", updated_at := "2025-10-02T00:00:00Z" }

/-- A finished meeting of the same pairing (exempt from collapsing). -/
def fxDupFT : Fixture :=
  { id := "d3", date := "2025-11-08", time := "15:00",
    competition := "County League", home := "Dublin", away := "Kerry",
    status := Status.FT, score := some "1-10 - 0-9",
    source := "ics", updated_at := "2025-11-08T18:00:00Z" }

/-- Witness instantiating C5 on a concrete three-fixture input with
distinct ids. -/
theorem collapse_spec_witness :
    (∀ f ∈ [fxDupEarly, fxDupLate, fxDupFT], f.status = Status.FT →
      f ∈ collapse_future_duplicates [] [fxDupEarly, fxDupLate, fxDupFT]) ∧
    (∀ k g, (k, g) ∈ collapseGroups [] [fxDupEarly, fxDupLate, fxDupFT] →
      1 < g.length →
      ∃ w ∈ g, (∀ x ∈ g, lexLe2 (chronKey w) (chronKey x)) ∧
        (∀ x ∈ g, (x ∈ collapse_future_duplicates [] [fxDupEarly, fxDupLate, fxDupFT] ↔
          x = w))) ∧
    List.Sorted chronAscRel
      (collapse_future_duplicates [] [fxDupEarly, fxDupLate, fxDupFT]) :=
  collapse_spec [] [fxDupEarly, fxDupLate, fxDupFT] (by decide)

/-- First group (Dublin, Kerry): the earliest member; its id `"x"` is
kept. -/
def cxA1 : Fixture :=
  { id := "x", date := "2025-11-01", time := "14:00",
    competition := "County League", home := "Dublin", away := "Kerry",
    source := "gaa_gms", updated_at := "2025-10-01T00:00:00Z" }

/-- First group: the later member, dropped as a duplicate. -/
def cxA2 : Fixture :=
  { id := "y", date := "2025-11-08", time := "14:00",
    competition := "County League", home := "Dublin", away := "Kerry",
    source := "gaa_gms", updated_at := "2025-10-01T00:00:00Z" }

/-- Second group (Galway, Mayo): the earliest member; its id `"z"` is
kept. -/
def cxB1 : Fixture :=
  { id := "z", date := "2025-11-02", time := "14:00",
    competition := "County League", home := "Galway", away := "Mayo",
    source := "gaa_gms", updated_at := "2025-10-01T00:00:00Z" }

/-- Second group: a later member from a different source whose id `"x"`
collides with the first group's kept id — a spec-valid input, since ids
are only source-scoped unique. -/
def cxB2 : Fixture :=
  { id := "x", date := "2025-11-09", time := "14:00",
    competition := "County League", home := "Galway", away := "Mayo",
    source := "scraper", updated_at := "2025-10-01T00:00:00Z" }

/-- C5 counterexample: the original claim ("within every group of more
than one member only the member with the earliest `(date, time)` appears
in the output and the rest are dropped") fails on a spec-valid input with
a cross-source id collision.  `(cxB1, cxB2)` form one two-member group,
`cxB1` is strictly earlier, yet **both** survive: `cxB2.id = "x"` is in
the global `keep_ids` set because the other group kept its id. -/
theorem collapse_id_collision_counterexample :
    (pairKey [] cxB1, [cxB1, cxB2]) ∈
        collapseGroups [] [cxA1, cxA2, cxB1, cxB2] ∧
    cxB1 ≠ cxB2 ∧ cxB1.source ≠ cxB2.source ∧
    lexLe2 (chronKey cxB1) (chronKey cxB2) ∧ chronKey cxB1 ≠ chronKey cxB2 ∧
    collapse_future_duplicates [] [cxA1, cxA2, cxB1, cxB2] =
      [cxA1, cxB1, cxB2] ∧
    cxB2 ∈ collapse_future_duplicates [] [cxA1, cxA2, cxB1, cxB2] := by
  refine ⟨by decide, by decide, by decide, by decide, by decide, by decide,
    by decide⟩

/-! Window selector claims (C8, C9, C10). -/

/-- A fixture inside the 14-day boundary. -/
def fxWin15 : Fixture :=
  { id := "w15", date := "2025-11-15", time := "14:00",
    competition := "County League", home := "Dublin", away := "Kerry",
    source := "ics", updated_at := "2025-10-01T00:00:00Z" }

/-- A non-scraper fixture one day past the boundary. -/
def fxWin16 : Fixture :=
  { id := "w16", date := "2025-11-16", time := "14:00",
    competition := "County League", home := "Galway", away := "Mayo",
    source := "ics", updated_at := "2025-10-01T00:00:00Z" }

/-- A scraper fixture one day past the boundary. -/
def fxWin16s : Fixture :=
  { id := "w16s", date := "2025-11-16", time := "14:00",
    competition := "County League", home := "Cork", away := "Clare",
    source := "scraper", updated_at := "2025-10-01T00:00:00Z" }

/-- C8: a fixture is in the upcoming window iff `date ≥ today` and either
`date ≤ today + days_forward`, or its source is the scraper and
`date ≤ today + scraper_days_forward`; with `today = 2025-11-01` and
`days_forward = 14` the boundary is `2025-11-15`: a fixture dated
`2025-11-15` is in, one dated `2025-11-16` is out (also as a scraper with
horizon 14) and in again as a scraper once the scraper horizon is 15. -/
theorem upcoming_window_iff :
    (∀ (today : String) (df sdf : Int) (merged : List Fixture) (f : Fixture),
      f ∈ upcomingWindow today df sdf merged ↔
        f ∈ merged ∧ strLe today f.date ∧
          (strLe f.date (addDaysIso today df) ∨
           (f.source = "scraper" ∧ strLe f.date (addDaysIso today sdf)))) ∧
    addDaysIso "2025-11-01" 14 = "2025-11-15" ∧
    fxWin15 ∈ upcomingWindow "2025-11-01" 14 14 [fxWin15, fxWin16, fxWin16s] ∧
    fxWin16 ∉ upcomingWindow "2025-11-01" 14 14 [fxWin15, fxWin16, fxWin16s] ∧
    fxWin16s ∉ upcomingWindow "2025-11-01" 14 14 [fxWin15, fxWin16, fxWin16s] ∧
    fxWin16s ∈ upcomingWindow "2025-11-01" 14 15 [fxWin15, fxWin16, fxWin16s] := by
  refine ⟨?_, by decide, by decide, by decide, by decide, by decide⟩
  intro today df sdf merged f
  unfold upcomingWindow
  rw [List.mem_filter, decide_eq_true_iff]

/-- C9: when no fixture matches the recent window, the results list is the
`FT` fixtures at or after the fallback cutoff, sorted descending by
`(date, time)` and truncated to 50 — hence all-`FT`, of length at most 50,
drawn from the input and descending-sorted. -/
theorem results_fallback_spec (today : String) (rdb fbd : Int)
    (merged : List Fixture)
    (hempty : merged.filter (recentPredB today rdb) = []) :
    resultsList today rdb fbd merged =
      (List.insertionSort chronDescRel
        (merged.filter (fun f => (f.status == Status.FT) &&
          decide (strLe (addDaysIso today (-fbd)) f.date)))).take 50 ∧
    (∀ f ∈ resultsList today rdb fbd merged,
      f.status = Status.FT ∧ f ∈ merged ∧ strLe (addDaysIso today (-fbd)) f.date) ∧
    (resultsList today rdb fbd merged).length ≤ 50 ∧
    List.Sorted chronDescRel (resultsList today rdb fbd merged) := by
  have heq : resultsList today rdb fbd merged =
      (List.insertionSort chronDescRel
        (merged.filter (fun f => (f.status == Status.FT) &&
          decide (strLe (addDaysIso today (-fbd)) f.date)))).take 50 := by
    unfold resultsList
    rw [hempty]
    rfl
  refine ⟨heq, ?_, ?_, ?_⟩
  · intro f hf
    rw [heq] at hf
    have h2 := List.mem_of_mem_take hf
    have h3 := (List.perm_insertionSort chronDescRel _).mem_iff.mp h2
    have h4 := List.mem_filter.mp h3
    have h5 := h4.2
    rw [Bool.and_eq_true, beq_iff_eq, decide_eq_true_iff] at h5
    exact ⟨h5.1, h4.1, h5.2⟩
  · rw [heq, List.length_take]
    exact min_le_left _ _
  · rw [heq]
    exact (List.sorted_insertionSort chronDescRel _).sublist
      (List.take_sublist _ _)

/-- Witness instantiating C9: one `FT` fixture outside the recent window
activates the fallback. -/
theorem results_fallback_spec_witness :
    resultsList "2025-11-01" 7 365 [fxDupFT] =
      (List.insertionSort chronDescRel
        ([fxDupFT].filter (fun f => (f.status == Status.FT) &&
          decide (strLe (addDaysIso "2025-11-01" (-(365 : Int))) f.date)))).take 50 ∧
    (∀ f ∈ resultsList "2025-11-01" 7 365 [fxDupFT],
      f.status = Status.FT ∧ f ∈ [fxDupFT] ∧
        strLe (addDaysIso "2025-11-01" (-(365 : Int))) f.date) ∧
    (resultsList "2025-11-01" 7 365 [fxDupFT]).length ≤ 50 ∧
    List.Sorted chronDescRel (resultsList "2025-11-01" 7 365 [fxDupFT]) :=
  results_fallback_spec "2025-11-01" 7 365 [fxDupFT] (by decide)

/-- Any fixture in the results list comes from the merged input. -/
theorem mem_of_mem_resultsList {today : String} {rdb fbd : Int}
    {merged : List Fixture} {f : Fixture}
    (h : f ∈ resultsList today rdb fbd merged) : f ∈ merged := by
  unfold resultsList at h
  by_cases he : (merged.filter (recentPredB today rdb)).isEmpty
  · rw [if_pos he] at h
    have h2 := List.mem_of_mem_take h
    have h3 := (List.perm_insertionSort chronDescRel _).mem_iff.mp h2
    exact List.mem_of_mem_filter h3
  · rw [if_neg he] at h
    exact List.mem_of_mem_filter h

/-- A fixture whose home team is the empty string. -/
def fxEmptyHome : Fixture :=
  { id := "e1", date := "2025-11-01", time := "12:00",
    competition := "County League", home := "", away := "Kerry",
    source := "ics", updated_at := "2025-10-01T00:00:00Z" }

/-- C10: `is_placeholder_team` accepts the empty string, so a fixture with
an empty home or away name never passes the placeholder filter and is
absent from both published windows of the pipeline. -/
theorem placeholder_empty_excluded :
    is_placeholder_team "" = true ∧
    (∀ (fs : List Fixture) (f : Fixture), (f.home = "" ∨ f.away = "") →
      f ∉ filter_placeholders fs) ∧
    (∀ (tbl : List (String × String)) (today : String) (df sdf rdb fbd : Int)
        (fs : List Fixture) (f : Fixture), (f.home = "" ∨ f.away = "") →
      f ∉ upcomingWindow today df sdf
          (collapse_future_duplicates tbl (filter_placeholders (dedupe tbl fs))) ∧
      f ∉ resultsList today rdb fbd
          (collapse_future_duplicates tbl (filter_placeholders (dedupe tbl fs)))) := by
  have hmain : ∀ (fs : List Fixture) (f : Fixture), (f.home = "" ∨ f.away = "") →
      f ∉ filter_placeholders fs := by
    intro fs f hempty hf
    have h2 := (List.mem_filter.mp hf).2
    rcases hempty with he | he <;>
      rw [he] at h2 <;> simp [is_placeholder_team] at h2
  refine ⟨rfl, hmain, ?_⟩
  intro tbl today df sdf rdb fbd fs f hempty
  constructor
  · intro hf
    have h2 := (List.mem_filter.mp hf).1
    have h3 := (mem_collapse_iff.mp h2).1
    exact hmain _ f hempty h3
  · intro hf
    have h2 := mem_of_mem_resultsList hf
    have h3 := (mem_collapse_iff.mp h2).1
    exact hmain _ f hempty h3

/-- Witness instantiating C10 on a concrete fixture with an empty home. -/
theorem placeholder_empty_excluded_witness :
    is_placeholder_team "" = true ∧
    fxEmptyHome ∉ filter_placeholders [fxEmptyHome] :=
  ⟨placeholder_empty_excluded.1,
   placeholder_empty_excluded.2.1 [fxEmptyHome] fxEmptyHome (Or.inl rfl)⟩

/-! Popularity scoring (claim C3). -/

/-- A fixture in the "Division 2 League" competition. -/
def fxDivision : Fixture :=
  { id := "p1", date := "2025-11-08", time := "14:00",
    competition := "Division 2 League", home := "Galway", away := "Mayo",
    source := "ics", updated_at := "2025-10-01T00:00:00Z" }

/-- C3 counterexample: the claim asserts
`popularity_score "All-Ireland Senior Football Championship" = 160`, but
`"senior championship"` is not a contiguous substring of
`"senior football championship"`, so only the all-ireland rule fires and
the score is 100. -/
theorem popularity_allireland_not_160 :
    popularity_score "All-Ireland Senior Football Championship" ≠ 160 ∧
    popularity_score "All-Ireland Senior Football Championship" = 100 := by
  constructor
  · decide
  · decide

/-- C3 amended: the score is the sum of the additive keyword rules over
the lowercased name, with each keyword matched as a contiguous substring;
hence "All-Ireland Senior Football Championship" scores 100 (only
"all-ireland" fires — "senior championship" is not contiguous in it),
"Division 2 League" scores 30, and the former still sorts first in the
competitions list. -/
theorem popularity_score_spec :
    popularity_score "All-Ireland Senior Football Championship" = 100 ∧
    popularity_score "Division 2 League" = 30 ∧
    (competitions_from_fixtures (fun _ => 0) [fxDivision, fixtureRegistryB]).map
        (fun c => c.name) =
      ["All-Ireland Senior Football Championship", "Division 2 League"] ∧
    (competitions_from_fixtures (fun _ => 0) [fxDivision, fixtureRegistryB]).map
        (fun c => c.popularity) = [100, 30] := by
  refine ⟨by decide, by decide, by decide, by decide⟩

/-! The slash placeholder rule (claim C4). -/

/-- C4 counterexample: `"Sligo/Leitrim"` is of the form `X/Y`, contains no
whole-word versus marker, yet is not classified as a placeholder: the
character class `[^vvs]` in `^[^vvs]+/.+$` forbids `v` **and `s`** before
the slash, and `"Sligo"` contains an `s`. -/
theorem slash_placeholder_counterexample :
    '/' ∈ "Sligo/Leitrim".data ∧
    versusSearch "Sligo/Leitrim".data = false ∧
    is_placeholder_team "Sligo/Leitrim" = false := by
  refine ⟨by decide, by decide, by decide⟩

/-- The classifier returns true whenever the slash rule fires, regardless
of the outcome of the earlier rules (each earlier rule can only return
`true` early). -/
theorem is_placeholder_team_true_of_slash {name : String}
    (hne : name.data ≠ [])
    (hslash : slashAltMatch (pyStrip name.data) = true)
    (hvs : versusSearch (pyStrip name.data) = false) :
    is_placeholder_team name = true := by
  unfold is_placeholder_team
  rw [if_neg (by simpa using hne)]
  by_cases h1 : simpleSearch (pyStrip name.data) = true
  · rw [if_pos h1]
  · rw [if_neg h1]
    by_cases h2 : (ph_words.any (fun w =>
        containsSubstr w.data ((strip_diacriticsL (pyStrip name.data)).map pyLowerChar))) = true
    · rw [if_pos h2]
    · rw [if_neg h2]
      by_cases h3 : stageSearch ((strip_diacriticsL (pyStrip name.data)).map pyLowerChar) = true
      · rw [if_pos h3]
      · rw [if_neg h3]
        by_cases h4 : groupPoolSearch ((strip_diacriticsL (pyStrip name.data)).map pyLowerChar) = true
        · rw [if_pos h4]
        · rw [if_neg h4]
          by_cases h5 : shortSearch ((strip_diacriticsL (pyStrip name.data)).map pyLowerChar) = true
          · rw [if_pos h5]
          · rw [if_neg h5]
            rw [if_pos (by rw [hslash, hvs]; rfl)]

/-- C4 amended: `is_placeholder_team` returns true for a name of the form
`A/B` without a whole-word versus marker **provided** the part before the
slash is non-empty and contains no letter `v` or `s` in either case (the
effect of the class `[^vvs]` with `re.I`), and the part after the slash is
non-empty and newline-free (`.+$`).  Decompositions are stated on the
stripped name, which is what the regex is applied to. -/
theorem slash_placeholder_amended (name : String) (A B : List Char)
    (hdec : pyStrip name.data = A ++ '/' :: B)
    (hA : A ≠ [])
    (hAok : ∀ c ∈ A, pyLowerChar c ≠ 'v' ∧ pyLowerChar c ≠ 's')
    (hB : B ≠ []) (hBnl : '\n' ∉ B)
    (hvs : versusSearch (pyStrip name.data) = false) :
    is_placeholder_team name = true := by
  have hraw : pyStrip name.data ≠ [] := by
    rw [hdec]; exact List.append_ne_nil_of_right_ne_nil _ (by simp)
  have hne : name.data ≠ [] := by
    intro h
    exact hraw (by rw [h]; rfl)
  refine is_placeholder_team_true_of_slash hne ?_ hvs
  unfold slashAltMatch
  rw [List.any_eq_true]
  refine ⟨A.length, List.mem_range.mpr ?_, ?_⟩
  · rw [hdec, List.length_append, List.length_cons]
    omega
  · have h0 : 0 < A.length := List.length_pos.mpr hA
    have hget : (pyStrip name.data).getD A.length ' ' = '/' := by
      rw [hdec, List.getD_eq_getElem?_getD, List.getElem?_append_right (le_refl _)]
      simp
    have htake : (pyStrip name.data).take A.length = A := by
      rw [hdec, List.take_left]
    have hdrop : (pyStrip name.data).drop (A.length + 1) = B := by
      rw [hdec, List.append_cons]
      have hlen : A.length + 1 = (A ++ ['/']).length := by simp
      rw [hlen, List.drop_left]
    have hlast : (B.getLast? == some '\n') = false := by
      cases hl : B.getLast? with
      | none => rfl
      | some c =>
          have hmem : c ∈ B := List.mem_of_mem_getLast? (by rw [hl]; rfl)
          by_cases hc : c = '\n'
          · exact absurd (hc ▸ hmem) hBnl
          · simp [hc]
    have hdot : dotPlusEnd B = true := by
      unfold dotPlusEnd
      rw [hlast]
      simp only [Bool.false_eq_true, if_false, Bool.and_eq_true]
      constructor
      · simpa using hB
      · rw [List.all_eq_true]
        intro c hc
        simp only [bne_iff_ne, ne_eq]
        intro hcn
        exact hBnl (hcn ▸ hc)
    have hall : (A.all (fun c => !(pyLowerChar c == 'v' || pyLowerChar c == 's'))) = true := by
      rw [List.all_eq_true]
      intro c hc
      obtain ⟨hv, hs⟩ := hAok c hc
      simp [hv, hs]
    rw [hget, htake, hdrop, hall, hdot]
    simp [h0]

/-- Witness instantiating amended C4: `"Team A/Team B"` (no `v`/`s` before
the slash, no versus marker) is classified as a placeholder. -/
theorem slash_placeholder_amended_witness :
    is_placeholder_team "Team A/Team B" = true :=
  slash_placeholder_amended "Team A/Team B" "Team A".data "Team B".data
    (by decide) (by decide) (by decide) (by decide) (by decide) (by decide)

/-! The `first_kickoff` timezone slip (claim C7). -/

/-- A fixture kicking off during British Summer Time. -/
def fxJulyKickoff : Fixture :=
  { id := "j1", date := "2025-07-01", time := "19:30",
    competition := "County League", home := "Dublin", away := "Kerry",
    source := "ics", updated_at := "2025-06-01T00:00:00Z" }

/-- C7: `iso_z` is applied to a **naive** `datetime`, which
`astimezone(timezone.utc)` interprets in the process's system timezone,
not Europe/London as the spec requires.  On a UTC-configured host the
2025-07-01 19:30 kickoff is published as `19:30:00Z`, while the
Europe/London interpretation (BST, +01:00) demanded by the claim is
`18:30:00Z`; the code only agrees with the claim when the system timezone
happens to be Europe/London (third conjunct). -/
theorem first_kickoff_system_tz_divergence :
    (competitions_from_fixtures (fun _ => 0) [fxJulyKickoff]).map
        (fun c => c.first_kickoff) = ["2025-07-01T19:30:00Z"] ∧
    londonKickoffIso "2025-07-01" "19:30" = "2025-07-01T18:30:00Z" ∧
    (competitions_from_fixtures londonOffset [fxJulyKickoff]).map
        (fun c => c.first_kickoff) = ["2025-07-01T18:30:00Z"] ∧
    ("2025-07-01T19:30:00Z" : String) ≠ "2025-07-01T18:30:00Z" := by
  refine ⟨by decide, by decide, by decide, by decide⟩

end GAA
